import Mathlib

/-!
Verification of the core algorithms of `farm/utils.py`:
the multiprocessing chunk-size heuristic (`calc_chunksize`),
the hex-identifier codec (`encode_id` / `decode_id`), and
the IOB tag-merging state machine (`convert_iob_to_simple_tags`).

Python strings are modelled as `List Char`, Python ints as `Nat`/`Int`,
and fallible code (assertions, parse errors) as `Option`/`Except`.
-/

/-! ## Chunk-size heuristic (`calc_chunksize`) -/

/-- Fuel-bounded run of the remainder-avoidance loop
`while num_dicts % multiprocessing_chunk_size == 1: multiprocessing_chunk_size -= -1`
of `calc_chunksize`.  `fuel` bounds the number of loop iterations that may still
run; `none` means the fuel was exhausted with the guard still true (the Python
loop would keep running past that point). -/
def adjustChunk (num_dicts : Nat) : Nat → Nat → Option Nat
  | 0, cs => if num_dicts % cs = 1 then none else some cs
  | fuel + 1, cs => if num_dicts % cs = 1 then adjustChunk num_dicts fuel (cs + 1) else some cs

/-- `calc_chunksize(num_dicts, min_chunksize, max_chunksize)` from `farm/utils.py`.
`mp.cpu_count()` is modelled by the extra argument `num_cpus` (the platform's
reported parallelism); `or 1` becomes the `if num_cpus = 0` substitution.
`np.ceil(a / b)` on naturals is `(a + b - 1) / b`, and
`int(np.clip(v, a_min, a_max))` is `min a_max (max a_min v)`.
The unbounded `while` loop is run on `fuel`; `none` means the loop had not
finished within `fuel` iterations. -/
def calc_chunksize (num_dicts min_chunksize max_chunksize num_cpus fuel : Nat) :
    Option (Nat × Nat) :=
  let num_cpus' := if num_cpus = 0 then 1 else num_cpus
  let dicts_per_cpu := (num_dicts + num_cpus' - 1) / num_cpus'
  let clipped := min max_chunksize (max min_chunksize ((dicts_per_cpu + 4) / 5))
  match adjustChunk num_dicts fuel clipped with
  | none => none
  | some cs =>
    let dict_batches_to_process := num_dicts / cs
    let num_cpus_used :=
      if min num_cpus dict_batches_to_process = 0 then 1
      else min num_cpus dict_batches_to_process
    some (cs, num_cpus_used)

/-- The heuristic terminates on the given inputs: some amount of fuel
suffices for the remainder-avoidance loop to exit. -/
def calcTerminates (num_dicts min_chunksize max_chunksize num_cpus : Nat) : Prop :=
  ∃ fuel, (calc_chunksize num_dicts min_chunksize max_chunksize num_cpus fuel).isSome = true

lemma adjustChunk_one_none (fuel : Nat) :
    ∀ cs, 2 ≤ cs → adjustChunk 1 fuel cs = none := by
  induction fuel with
  | zero =>
    intro cs hcs
    have h1 : 1 % cs = 1 := Nat.mod_eq_of_lt (by omega)
    simp [adjustChunk, h1]
  | succ n ih =>
    intro cs hcs
    have h1 : 1 % cs = 1 := Nat.mod_eq_of_lt (by omega)
    simp only [adjustChunk, h1, if_pos]
    exact ih (cs + 1) (by omega)

lemma adjustChunk_isSome (nd : Nat) (hnd : 2 ≤ nd) :
    ∀ fuel cs, 1 ≤ cs → nd ≤ cs + fuel → (adjustChunk nd fuel cs).isSome = true := by
  intro fuel
  induction fuel with
  | zero =>
    intro cs hcs hle
    have : nd % cs ≠ 1 := by
      rcases Nat.lt_or_ge nd cs with h | h
      · rw [Nat.mod_eq_of_lt h]; omega
      · have : nd = cs := by omega
        subst this
        simp [Nat.mod_self]
    simp [adjustChunk, this]
  | succ n ih =>
    intro cs hcs hle
    by_cases h : nd % cs = 1
    · simp only [adjustChunk, h, if_pos]
      exact ih (cs + 1) (by omega) (by omega)
    · simp [adjustChunk, h]

lemma adjustChunk_some_spec (nd : Nat) :
    ∀ fuel cs c, adjustChunk nd fuel cs = some c → cs ≤ c ∧ nd % c ≠ 1 := by
  intro fuel
  induction fuel with
  | zero =>
    intro cs c h
    by_cases hg : nd % cs = 1
    · simp [adjustChunk, hg] at h
    · simp [adjustChunk, hg] at h
      subst h
      exact ⟨Nat.le_refl _, hg⟩
  | succ n ih =>
    intro cs c h
    by_cases hg : nd % cs = 1
    · simp only [adjustChunk, hg, if_pos] at h
      have := ih (cs + 1) c h
      exact ⟨by omega, this.2⟩
    · simp [adjustChunk, hg] at h
      subst h
      exact ⟨Nat.le_refl _, hg⟩

/-- C5 counterexample: on `num_dicts = 1` with the default bounds
`min_chunksize = 4`, `max_chunksize = 2000` and one CPU, the remainder-avoidance
loop never exits (`1 % cs == 1` for every `cs ≥ 2`), so `calc_chunksize` does
not terminate: no amount of fuel makes it return. -/
theorem calc_chunksize_diverges_at_one : ¬ calcTerminates 1 4 2000 1 := by
  rintro ⟨fuel, hf⟩
  have h4 : adjustChunk 1 fuel 4 = none := adjustChunk_one_none fuel 4 (by omega)
  simp only [calc_chunksize] at hf
  norm_num at hf
  rw [h4] at hf
  simp at hf

/-- C5 (amended): for every `num_dicts ≥ 2`, every `available_parallelism ≥ 1`
and every `1 ≤ min_chunksize ≤ max_chunksize`, the chunk-size heuristic
terminates and returns a result.  (For `num_dicts = 1` the remainder-avoidance
loop diverges whenever the initial clamped chunk size is at least 2.) -/
theorem calc_chunksize_terminates (nd mn mx p : Nat)
    (hnd : 2 ≤ nd) (hp : 1 ≤ p) (hmn : 1 ≤ mn) (hmx : mn ≤ mx) :
    calcTerminates nd mn mx p := by
  refine ⟨nd, ?_⟩
  simp only [calc_chunksize]
  have hp0 : ¬ p = 0 := by omega
  simp only [hp0, if_false]
  set v := (nd + p - 1) / p with hv
  set clipped := min mx (max mn ((v + 4) / 5)) with hcl
  have hclip : 1 ≤ clipped := by
    have h1 : mn ≤ min mx (max mn ((v + 4) / 5)) :=
      le_min hmx (Nat.le_max_left _ _)
    omega
  have hs : (adjustChunk nd nd clipped).isSome = true :=
    adjustChunk_isSome nd hnd nd clipped hclip (by omega)
  rcases Option.isSome_iff_exists.mp hs with ⟨c, hc⟩
  rw [hc]
  simp

/-- C5 witness. -/
theorem calc_chunksize_terminates_witness : calcTerminates 2 4 2000 8 :=
  calc_chunksize_terminates 2 4 2000 8 (by omega) (by omega) (by omega) (by omega)

/-- C6: whenever `calc_chunksize` returns on `num_dicts ≥ 1`,
parallelism ≥ 1 and sane bounds `1 ≤ min_chunksize ≤ max_chunksize`, the
returned pair satisfies `chunk_size ≥ min_chunksize`, `worker_count ≥ 1`, and
`num_dicts % chunk_size ≠ 1` (the loop's exit condition, which here holds
unconditionally, hence in particular "unless chunk_size hit max_chunksize"). -/
theorem calc_chunksize_guarantees (nd mn mx p fuel cs w : Nat)
    (hnd : 1 ≤ nd) (hp : 1 ≤ p) (hmn : 1 ≤ mn) (hmx : mn ≤ mx)
    (h : calc_chunksize nd mn mx p fuel = some (cs, w)) :
    mn ≤ cs ∧ 1 ≤ w ∧ nd % cs ≠ 1 := by
  simp only [calc_chunksize] at h
  have hp0 : ¬ p = 0 := by omega
  simp only [hp0, if_false] at h
  set v := (nd + p - 1) / p with hv
  set clipped := min mx (max mn ((v + 4) / 5)) with hcl
  rcases hadj : adjustChunk nd fuel clipped with _ | c
  · rw [hadj] at h; simp at h
  · rw [hadj] at h
    simp only [Option.some.injEq, Prod.mk.injEq] at h
    obtain ⟨hc, hw⟩ := h
    have hspec := adjustChunk_some_spec nd fuel clipped c hadj
    have hclip : mn ≤ clipped := le_min hmx (Nat.le_max_left _ _)
    constructor
    · omega
    constructor
    · rcases hz : min p (nd / c) with _ | k
      · rw [hz] at hw; simp at hw; omega
      · rw [hz] at hw; simp at hw; omega
    · rw [← hc]; exact hspec.2

/-- C6 witness: the spec's worked example `num_dicts = 100`, bounds `[4, 2000]`,
parallelism 8 gives chunk size 4 and 8 workers. -/
theorem calc_chunksize_guarantees_witness : 4 ≤ 4 ∧ 1 ≤ 8 ∧ 100 % 4 ≠ 1 :=
  calc_chunksize_guarantees 100 4 2000 8 0 4 8 (by omega) (by omega) (by omega)
    (by omega) (by decide)

/-! ## Hex identifier codec (`encode_id` / `decode_id`) -/

/-- Errors of `encode_id`: the length assertion (`InvalidLengthError` in the
spec's naming) and a failed base-16 parse (`InvalidFormatError`). -/
inductive EncodeError
  | invalidLength
  | invalidFormat
deriving DecidableEq

/-- Value of one hexadecimal digit character (`0-9`, `a-f`, `A-F`),
`none` for any other character. -/
def hexVal (c : Char) : Option Nat :=
  if 48 ≤ c.toNat ∧ c.toNat ≤ 57 then some (c.toNat - 48)
  else if 97 ≤ c.toNat ∧ c.toNat ≤ 102 then some (c.toNat - 87)
  else if 65 ≤ c.toNat ∧ c.toNat ≤ 70 then some (c.toNat - 55)
  else none

def parseHexAux : List Char → Nat → Option Nat
  | [], acc => some acc
  | c :: rest, acc =>
    match hexVal c with
    | none => none
    | some v => parseHexAux rest (acc * 16 + v)

/-- Python `int(s, 16)` restricted to plain digit strings: the empty string
fails, and every character must be a hex digit (either case). -/
def parseHex : List Char → Option Nat
  | [] => none
  | c :: rest => parseHexAux (c :: rest) 0

/-- The slicing `encode_id` performs before parsing:
`id[:14], id[14:27], id[27:]` for length 40, else
`third = int(len_id / 3)` and `id[:third], id[third:third*2], id[third*2:]`. -/
def splitId (id : List Char) : List Char × List Char × List Char :=
  if id.length = 40 then (id.take 14, (id.drop 14).take 13, id.drop 27)
  else (id.take (id.length / 3), (id.drop (id.length / 3)).take (id.length / 3),
    id.drop (id.length / 3 * 2))

/-- `encode_id(id)` from `farm/utils.py`.  `none` is Python's `None`; the
failing `assert len_id in [24, 32, 40]` becomes `EncodeError.invalidLength`,
and a failing `int(hexa, 16)` becomes `EncodeError.invalidFormat`. -/
def encode_id : Option (List Char) → Except EncodeError (Nat × Nat × Nat × Nat)
  | none => .ok (0, 0, 0, 0)
  | some id =>
    let len_id := id.length
    if len_id = 24 ∨ len_id = 32 ∨ len_id = 40 then
      match parseHex (splitId id).1, parseHex (splitId id).2.1, parseHex (splitId id).2.2 with
      | some int_1, some int_2, some int_3 => .ok (len_id, int_1, int_2, int_3)
      | _, _, _ => .error .invalidFormat
    else .error .invalidLength

/-- Lowercase hex digit character for a value `d < 16`. -/
def hexDigitChar (d : Nat) : Char :=
  if d < 10 then Char.ofNat (48 + d) else Char.ofNat (87 + d)

def toHexCore : Nat → Nat → List Char → List Char
  | 0, _, acc => acc
  | fuel + 1, n, acc =>
    if n = 0 then acc else toHexCore fuel (n / 16) (hexDigitChar (n % 16) :: acc)

/-- Python `hex(n)[2:]` for `n ≥ 0`: lowercase hex digits of `n`, no leading
zeros, and `"0"` for zero.  `n + 1` is enough fuel since a number has at most
as many hex digits as its value. -/
def toHex (n : Nat) : List Char :=
  if n = 0 then ['0'] else toHexCore (n + 1) n []

/-- Python `str.zfill`: left-pad with `'0'` to the given width (strings already
at least that long are unchanged). -/
def zfill (width : Nat) (l : List Char) : List Char :=
  List.replicate (width - l.length) '0' ++ l

/-- `decode_id(len_id, int_1, int_2, int_3)` from `farm/utils.py`.
The failing `assert len(hexa) == len_id` becomes `none`. -/
def decode_id (len_id int_1 int_2 int_3 : Nat) : Option (List Char) :=
  let hexa_1 := toHex int_1
  let hexa_2 := toHex int_2
  let hexa_3 := toHex int_3
  let padded :=
    if len_id = 40 then (zfill 14 hexa_1, zfill 13 hexa_2, zfill 13 hexa_3)
    else
      let third := len_id / 3
      (zfill third hexa_1, zfill third hexa_2, zfill third hexa_3)
  let hexa := padded.1 ++ padded.2.1 ++ padded.2.2
  if hexa.length = len_id then some hexa else none

lemma splitId_concat (id : List Char) :
    (splitId id).1 ++ (splitId id).2.1 ++ (splitId id).2.2 = id := by
  unfold splitId
  split
  case isTrue h =>
    rw [List.append_assoc]
    rw [show id.drop 27 = (id.drop 14).drop 13 by rw [List.drop_drop]]
    rw [List.take_append_drop, List.take_append_drop]
  case isFalse h =>
    rw [List.append_assoc]
    rw [show id.drop (id.length / 3 * 2) = (id.drop (id.length / 3)).drop (id.length / 3) by
      rw [List.drop_drop]; congr 1; omega]
    rw [List.take_append_drop, List.take_append_drop]

lemma splitId_len_24 (id : List Char) (h : id.length = 24) :
    (splitId id).1.length = 8 ∧ (splitId id).2.1.length = 8 ∧ (splitId id).2.2.length = 8 := by
  have h40 : ¬ id.length = 40 := by omega
  refine ⟨?_, ?_, ?_⟩ <;>
    simp [splitId, h40, h, List.length_take, List.length_drop]

lemma splitId_len_32 (id : List Char) (h : id.length = 32) :
    (splitId id).1.length = 10 ∧ (splitId id).2.1.length = 10 ∧ (splitId id).2.2.length = 12 := by
  have h40 : ¬ id.length = 40 := by omega
  refine ⟨?_, ?_, ?_⟩ <;>
    simp [splitId, h40, h, List.length_take, List.length_drop]

lemma splitId_len_40 (id : List Char) (h : id.length = 40) :
    (splitId id).1.length = 14 ∧ (splitId id).2.1.length = 13 ∧ (splitId id).2.2.length = 13 := by
  refine ⟨?_, ?_, ?_⟩ <;>
    simp [splitId, h, List.length_take, List.length_drop]

lemma splitId_mem (id : List Char) :
    (∀ c ∈ (splitId id).1, c ∈ id) ∧ (∀ c ∈ (splitId id).2.1, c ∈ id) ∧
    (∀ c ∈ (splitId id).2.2, c ∈ id) := by
  unfold splitId
  split <;>
    exact ⟨fun c hc => List.mem_of_mem_take hc,
      fun c hc => List.mem_of_mem_drop (List.mem_of_mem_take hc),
      fun c hc => List.mem_of_mem_drop hc⟩

/-- C2 counterexample: for a 32-character identifier the third slice taken by
`encode_id` has 12 characters, not `32 / 3 = 10`: the partition is 10/10/12,
not three equal thirds. -/
theorem splitId_32_not_equal_thirds :
    ¬ ((splitId (List.replicate 32 'a')).2.2.length = 32 / 3) := by decide

/-- C2 (amended): `encode_id` partitions a length-40 identifier into widths
14/13/13 and a length-24 identifier into equal thirds 8/8/8, but a length-32
identifier into widths 10/10/12 (the first two of width `32 / 3 = 10`, the last
taking the 12 remaining characters); in every case the three pieces exactly
consume the string with no remainder. -/
theorem splitId_partition (id : List Char) :
    (id.length = 24 →
      (splitId id).1.length = 8 ∧ (splitId id).2.1.length = 8 ∧ (splitId id).2.2.length = 8) ∧
    (id.length = 32 →
      (splitId id).1.length = 10 ∧ (splitId id).2.1.length = 10 ∧ (splitId id).2.2.length = 12) ∧
    (id.length = 40 →
      (splitId id).1.length = 14 ∧ (splitId id).2.1.length = 13 ∧ (splitId id).2.2.length = 13) ∧
    (splitId id).1 ++ (splitId id).2.1 ++ (splitId id).2.2 = id :=
  ⟨splitId_len_24 id, splitId_len_32 id, splitId_len_40 id, splitId_concat id⟩

/-- C2 witness: the partition facts at a concrete length-32 identifier. -/
theorem splitId_partition_witness :
    (splitId (List.replicate 32 'a')).1.length = 10 ∧
    (splitId (List.replicate 32 'a')).2.1.length = 10 ∧
    (splitId (List.replicate 32 'a')).2.2.length = 12 :=
  (splitId_partition (List.replicate 32 'a')).2.1 (by simp)

/-- C1 (code bug): encoding the valid length-32 identifier consisting of 32
`'0'` characters succeeds with `(32, 0, 0, 0)`, but decoding that very tuple
fails the decode assertion (`none`): `decode_id` zero-pads the three segments
to width `32 / 3 = 10` each, reconstructing 30 characters, while `encode_id`
split the string as 10/10/12 — so `decode(*encode(id))` raises instead of
returning `id.lower()`. -/
theorem encode_decode_fails_at_len32 :
    encode_id (some (List.replicate 32 '0')) = .ok (32, 0, 0, 0) ∧
    decode_id 32 0 0 0 = none :=
  ⟨rfl, rfl⟩

/-- C3 counterexample: `decode_id 0 0 0 0` does not return an empty/absent
identifier sentinel — it fails its length assertion (modelled as `none`),
because `hex(0)[2:]` is `"0"`, so the reconstruction is `"000"` of length
3 ≠ 0. -/
theorem decode_id_zero_fails : decode_id 0 0 0 0 = none := rfl

/-- C3 (amended): `encode_id` on the absent identifier returns exactly
`(0, 0, 0, 0)`, but `decode_id 0 0 0 0` fails the length assertion
(reconstructing `"000"`) rather than returning an empty sentinel. -/
theorem encode_none_decode_zero :
    encode_id none = .ok (0, 0, 0, 0) ∧ decode_id 0 0 0 0 = none :=
  ⟨rfl, rfl⟩

lemma parseHexAux_isSome (l : List Char) (hl : ∀ c ∈ l, (hexVal c).isSome = true) :
    ∀ acc, ∃ v, parseHexAux l acc = some v := by
  induction l with
  | nil => intro acc; exact ⟨acc, rfl⟩
  | cons c rest ih =>
    intro acc
    rcases Option.isSome_iff_exists.mp (hl c (List.mem_cons_self c rest)) with ⟨v, hv⟩
    simp only [parseHexAux, hv]
    exact ih (fun d hd => hl d (List.mem_cons_of_mem c hd)) (acc * 16 + v)

lemma parseHex_isSome (p : List Char) (hp : p ≠ [])
    (hhex : ∀ c ∈ p, (hexVal c).isSome = true) : ∃ v, parseHex p = some v := by
  cases p with
  | nil => exact absurd rfl hp
  | cons c rest => exact parseHexAux_isSome (c :: rest) hhex 0

/-- C4: `encode_id` raises the invalid-length error exactly on non-null
strings whose length is not 24, 32 or 40; it returns normally on `None` and on
any hex-digit string of length 24, 32 or 40. -/
theorem encode_id_error_iff (l : List Char) :
    (encode_id (some l) = .error .invalidLength ↔
      ¬ (l.length = 24 ∨ l.length = 32 ∨ l.length = 40)) ∧
    encode_id none = .ok (0, 0, 0, 0) ∧
    ((l.length = 24 ∨ l.length = 32 ∨ l.length = 40) →
      (∀ c ∈ l, (hexVal c).isSome = true) →
      ∃ t, encode_id (some l) = .ok t) := by
  refine ⟨?_, rfl, ?_⟩
  · by_cases hlen : l.length = 24 ∨ l.length = 32 ∨ l.length = 40
    · simp only [encode_id, if_pos hlen, hlen, not_true, iff_false]
      intro h
      rcases h1 : parseHex (splitId l).1 with _ | v1 <;>
        rcases h2 : parseHex (splitId l).2.1 with _ | v2 <;>
        rcases h3 : parseHex (splitId l).2.2 with _ | v3 <;>
        rw [h1, h2, h3] at h <;> simp at h
    · simp [encode_id, hlen]
  · intro hlen hhex
    have hmem := splitId_mem l
    have hx1 : ∀ c ∈ (splitId l).1, (hexVal c).isSome = true :=
      fun c hc => hhex c (hmem.1 c hc)
    have hx2 : ∀ c ∈ (splitId l).2.1, (hexVal c).isSome = true :=
      fun c hc => hhex c (hmem.2.1 c hc)
    have hx3 : ∀ c ∈ (splitId l).2.2, (hexVal c).isSome = true :=
      fun c hc => hhex c (hmem.2.2 c hc)
    have hpos : 0 < (splitId l).1.length ∧ 0 < (splitId l).2.1.length ∧
        0 < (splitId l).2.2.length := by
      rcases hlen with h | h | h
      · have := splitId_len_24 l h; omega
      · have := splitId_len_32 l h; omega
      · have := splitId_len_40 l h; omega
    obtain ⟨v1, hv1⟩ := parseHex_isSome _ (List.ne_nil_of_length_pos hpos.1) hx1
    obtain ⟨v2, hv2⟩ := parseHex_isSome _ (List.ne_nil_of_length_pos hpos.2.1) hx2
    obtain ⟨v3, hv3⟩ := parseHex_isSome _ (List.ne_nil_of_length_pos hpos.2.2) hx3
    refine ⟨(l.length, v1, v2, v3), ?_⟩
    simp only [encode_id, if_pos hlen, hv1, hv2, hv3]

/-- C4 witness: a concrete valid hex identifier of length 24 encodes
successfully, and a length-3 string hits the invalid-length error. -/
theorem encode_id_error_iff_witness :
    (encode_id (some (List.replicate 3 'a')) = .error .invalidLength ↔
      ¬ ((List.replicate 3 'a').length = 24 ∨ (List.replicate 3 'a').length = 32 ∨
        (List.replicate 3 'a').length = 40)) ∧
    ∃ t, encode_id (some (List.replicate 24 'a')) = .ok t :=
  ⟨(encode_id_error_iff (List.replicate 3 'a')).1,
    (encode_id_error_iff (List.replicate 24 'a')).2.2 (by simp) (by decide)⟩

lemma char_toNat_ofNat (m : Nat) (h : m < 55296) : (Char.ofNat m).toNat = m := by
  have hv : Nat.isValidChar m := Or.inl h
  unfold Char.ofNat
  rw [dif_pos hv]
  rfl

lemma hexVal_toLower (c : Char) : hexVal (Char.toLower c) = hexVal c := by
  simp only [Char.toLower]
  by_cases h : c.toNat ≥ 65 ∧ c.toNat ≤ 90
  · rw [if_pos h]
    have ht : (Char.ofNat (c.toNat + 32)).toNat = c.toNat + 32 :=
      char_toNat_ofNat _ (by omega)
    simp only [hexVal, ht]
    split_ifs <;>
      first
        | rfl
        | omega
        | (simp only [Option.some.injEq]; omega)
  · rw [if_neg h]

set_option maxRecDepth 2048 in
lemma hexVal_toUpper (c : Char) : hexVal (Char.toUpper c) = hexVal c := by
  simp only [Char.toUpper]
  by_cases h : c.toNat ≥ 97 ∧ c.toNat ≤ 122
  · rw [if_pos h]
    have ht : (Char.ofNat (c.toNat - 32)).toNat = c.toNat - 32 :=
      char_toNat_ofNat _ (by omega)
    simp only [hexVal, ht]
    split_ifs <;>
      first
        | rfl
        | omega
        | (simp only [Option.some.injEq]; omega)
  · rw [if_neg h]

lemma parseHexAux_map (f : Char → Char) (hf : ∀ c, hexVal (f c) = hexVal c) :
    ∀ (l : List Char) (acc : Nat), parseHexAux (l.map f) acc = parseHexAux l acc := by
  intro l
  induction l with
  | nil => intro acc; rfl
  | cons c rest ih =>
    intro acc
    simp only [List.map_cons, parseHexAux, hf c]
    cases hexVal c with
    | none => rfl
    | some v => exact ih (acc * 16 + v)

lemma parseHex_map (f : Char → Char) (hf : ∀ c, hexVal (f c) = hexVal c)
    (l : List Char) : parseHex (l.map f) = parseHex l := by
  cases l with
  | nil => rfl
  | cons c rest =>
    simp only [List.map_cons, parseHex]
    exact parseHexAux_map f hf (c :: rest) 0

lemma splitId_map (f : Char → Char) (l : List Char) :
    splitId (l.map f) = ((splitId l).1.map f, (splitId l).2.1.map f, (splitId l).2.2.map f) := by
  simp only [splitId, List.length_map]
  split <;> simp [List.map_take, List.map_drop]

lemma encode_id_map_congr (f : Char → Char) (hf : ∀ c, hexVal (f c) = hexVal c)
    (l : List Char) : encode_id (some (l.map f)) = encode_id (some l) := by
  simp only [encode_id, List.length_map, splitId_map]
  rw [parseHex_map f hf, parseHex_map f hf, parseHex_map f hf]

/-- C10: `encode_id` does not depend on the case of its hex digits:
lowercasing or uppercasing the input string (Python `str.lower` / `str.upper`,
which on the hex alphabet is `Char.toLower` / `Char.toUpper` mapped over the
characters) leaves the encoded result unchanged — for every string, so in
particular for every valid identifier of length 24, 32 or 40. -/
theorem encode_id_case_insensitive (l : List Char) :
    encode_id (some (l.map Char.toLower)) = encode_id (some l) ∧
    encode_id (some (l.map Char.toUpper)) = encode_id (some l) :=
  ⟨encode_id_map_congr Char.toLower hexVal_toLower l,
    encode_id_map_congr Char.toUpper hexVal_toUpper l⟩

/-! ## IOB tag merging (`convert_iob_to_simple_tags`) -/

/-- A token span dict `{"start": ..., "end": ...}`; the field `stop` models the
`"end"` key (`end` is a Lean keyword). -/
structure Span where
  start : Int
  stop : Int
deriving DecidableEq

/-- Python's `needle in s` for the two-character needle `a, b` — used for
`"B-" in pred` and `"I-" in pred` (substring containment, not a prefix test). -/
def hasSub (a b : Char) : List Char → Bool
  | [] => false
  | [_] => false
  | c :: d :: rest => if c = a ∧ d = b then true else hasSub a b (d :: rest)

/-- Python's `s.replace(ab, "")` for the two-character pattern `a, b`:
remove all non-overlapping occurrences, scanning left to right. -/
def stripAll (a b : Char) : List Char → List Char
  | [] => []
  | [c] => [c]
  | c :: d :: rest =>
    if c = a ∧ d = b then stripAll a b rest else c :: stripAll a b (d :: rest)

/-- Interpreter state of `convert_iob_to_simple_tags`.  Python's span dicts are
mutable records aliased by reference, so `spans` holds the current contents of
the input list's records, `merged_idx` holds the emitted references as indices
into it, and `cur_idx` is the record reference held by the local `cur_span`. -/
structure IobState where
  spans : List Span
  simple_tags : List (List Char)
  merged_idx : List Nat
  open_tag : Bool
  cur_tag : List Char
  cur_idx : Nat

/-- One iteration of the `for pred, span in zip(preds, spans)` loop body of
`convert_iob_to_simple_tags`, processing the token at position `i`.
`cur_span["end"] = span["end"]` is the in-place update `List.set` at
`cur_idx`. -/
def iobStep (i : Nat) (pred : List Char) (s : IobState) : IobState :=
  if hasSub 'B' '-' pred = false ∧ hasSub 'I' '-' pred = false then
    if s.open_tag then
      { s with merged_idx := s.merged_idx ++ [s.cur_idx],
               simple_tags := s.simple_tags ++ [s.cur_tag],
               open_tag := false }
    else s
  else if hasSub 'B' '-' pred = true then
    if s.open_tag then
      { s with merged_idx := s.merged_idx ++ [s.cur_idx],
               simple_tags := s.simple_tags ++ [s.cur_tag],
               cur_tag := stripAll 'B' '-' pred, cur_idx := i, open_tag := true }
    else
      { s with cur_tag := stripAll 'B' '-' pred, cur_idx := i, open_tag := true }
  else
    if s.open_tag ∧ stripAll 'I' '-' pred = s.cur_tag then
      let cur_span := s.spans.getD s.cur_idx ⟨0, 0⟩
      let span := s.spans.getD i ⟨0, 0⟩
      { s with spans := s.spans.set s.cur_idx { cur_span with stop := span.stop } }
    else if s.open_tag then
      { s with merged_idx := s.merged_idx ++ [s.cur_idx],
               simple_tags := s.simple_tags ++ [s.cur_tag],
               open_tag := false }
    else s

def iobLoop : Nat → List (List Char) → IobState → IobState
  | _, [], s => s
  | i, pred :: rest, s => iobLoop (i + 1) rest (iobStep i pred s)

/-- The trailing `if open_tag:` emission after the loop. -/
def iobFinal (s : IobState) : IobState :=
  if s.open_tag then
    { s with merged_idx := s.merged_idx ++ [s.cur_idx],
             simple_tags := s.simple_tags ++ [s.cur_tag] }
  else s

/-- `convert_iob_to_simple_tags(preds, spans)` from `farm/utils.py`.
Returns `(simple_tags, merged_spans, final_spans)`: the first two are the
function's return value (`merged_spans` materialised from the references it
holds), and `final_spans` is the post-call contents of the caller's input span
records, which the function mutates through `cur_span` aliasing. -/
def convert_iob_to_simple_tags (preds : List (List Char)) (spans : List Span) :
    List (List Char) × List Span × List Span :=
  let s := iobFinal (iobLoop 0 (preds.take spans.length) ⟨spans, [], [], false, [], 0⟩)
  (s.simple_tags, s.merged_idx.map (fun k => s.spans.getD k ⟨0, 0⟩), s.spans)

/-- Abstract IOB token of the specification: `O`, `B-<TYPE>` or `I-<TYPE>`. -/
inductive IobTok
  | O : IobTok
  | Bt : List Char → IobTok
  | It : List Char → IobTok
deriving DecidableEq

/-- Modelled from the spec: the transition/emission loop of the two-state
machine of §4.2 (`merge_iob_spans`), processing the zipped token/span sequence
with state `CLOSED` (`none`) or `OPEN (tag, span)` (`some`), emitting entities
in token order and emitting a still-open entity at the end of the sequence. -/
def mergeLoop : List (IobTok × Span) → Option (List Char × Span) → List (List Char) × List Span
  | [], none => ([], [])
  | [], some (t, sp) => ([t], [sp])
  | (tok, span) :: rest, st =>
    match tok, st with
    | .O, none => mergeLoop rest none
    | .O, some (t, sp) =>
      ((mergeLoop rest none).1.cons t, (mergeLoop rest none).2.cons sp)
    | .Bt x, none => mergeLoop rest (some (x, span))
    | .Bt x, some (t, sp) =>
      ((mergeLoop rest (some (x, span))).1.cons t, (mergeLoop rest (some (x, span))).2.cons sp)
    | .It _, none => mergeLoop rest none
    | .It x, some (t, sp) =>
      if x = t then mergeLoop rest (some (t, { sp with stop := span.stop }))
      else ((mergeLoop rest none).1.cons t, (mergeLoop rest none).2.cons sp)

/-- Modelled from the spec: `merge_iob_spans(tags, spans)` of §4.2, the
specification's state machine whose behaviour the source function is claimed
to match. -/
def merge_iob_spans (toks : List IobTok) (spans : List Span) :
    List (List Char) × List Span :=
  mergeLoop (toks.zip spans) none

/-- The string form of an abstract token: `"O"`, `"B-" + t`, `"I-" + t`. -/
def renderTok : IobTok → List Char
  | .O => ['O']
  | .Bt t => 'B' :: '-' :: t
  | .It t => 'I' :: '-' :: t

/-- An entity type is clean when it contains neither `"B-"` nor `"I-"` as a
substring, so the source's substring tests and replace-all agree with the
prefix reading of the tag. -/
def cleanType (t : List Char) : Prop :=
  hasSub 'B' '-' t = false ∧ hasSub 'I' '-' t = false

def cleanTok : IobTok → Prop
  | .O => True
  | .Bt t => cleanType t
  | .It t => cleanType t

lemma hasSub_cons_of_ne (a b c : Char) (l : List Char) (h : ¬ c = a) :
    hasSub a b (c :: l) = hasSub a b l := by
  cases l with
  | nil => rfl
  | cons d rest => simp [hasSub, h]

lemma stripAll_of_not_hasSub (a b : Char) :
    ∀ l, hasSub a b l = false → stripAll a b l = l := by
  intro l
  induction l with
  | nil => intro _; rfl
  | cons c tail ih =>
    intro h
    cases tail with
    | nil => rfl
    | cons d rest =>
      by_cases hcd : c = a ∧ d = b
      · simp [hasSub, hcd] at h
      · simp only [hasSub, hcd, if_false] at h
        simp only [stripAll, hcd, if_false]
        rw [ih h]

lemma hasSub_B_of_renderB (x : List Char) : hasSub 'B' '-' ('B' :: '-' :: x) = true := by
  simp [hasSub]

lemma hasSub_I_of_renderI (x : List Char) : hasSub 'I' '-' ('I' :: '-' :: x) = true := by
  simp [hasSub]

lemma hasSub_B_of_renderI (x : List Char) :
    hasSub 'B' '-' ('I' :: '-' :: x) = hasSub 'B' '-' x := by
  have h1 : hasSub 'B' '-' ('I' :: '-' :: x) = hasSub 'B' '-' ('-' :: x) := by
    simp [hasSub]
  rw [h1, hasSub_cons_of_ne _ _ _ _ (by decide)]

lemma stripAll_renderB (x : List Char) (h : hasSub 'B' '-' x = false) :
    stripAll 'B' '-' ('B' :: '-' :: x) = x := by
  have : stripAll 'B' '-' ('B' :: '-' :: x) = stripAll 'B' '-' x := by
    simp [stripAll]
  rw [this, stripAll_of_not_hasSub _ _ x h]

lemma stripAll_renderI (x : List Char) (h : hasSub 'I' '-' x = false) :
    stripAll 'I' '-' ('I' :: '-' :: x) = x := by
  have : stripAll 'I' '-' ('I' :: '-' :: x) = stripAll 'I' '-' x := by
    simp [stripAll]
  rw [this, stripAll_of_not_hasSub _ _ x h]

lemma getD_set_ne (l : List Span) (i j : Nat) (v d : Span) (h : ¬ i = j) :
    (l.set i v).getD j d = l.getD j d := by
  simp [List.getD_eq_getElem?_getD, List.getElem?_set_ne h]

lemma getD_set_self (l : List Span) (i : Nat) (v d : Span) (h : i < l.length) :
    (l.set i v).getD i d = v := by
  simp [List.getD_eq_getElem?_getD, List.getElem?_set_self h]

lemma iobStep_O_case (i : Nat) (pred : List Char) (s : IobState)
    (hB : hasSub 'B' '-' pred = false) (hI : hasSub 'I' '-' pred = false) :
    iobStep i pred s =
      if s.open_tag = true then
        { s with merged_idx := s.merged_idx ++ [s.cur_idx],
                 simple_tags := s.simple_tags ++ [s.cur_tag], open_tag := false }
      else s := by
  simp [iobStep, hB, hI]

lemma iobStep_B_case (i : Nat) (pred : List Char) (s : IobState)
    (hB : hasSub 'B' '-' pred = true) :
    iobStep i pred s =
      if s.open_tag = true then
        { s with merged_idx := s.merged_idx ++ [s.cur_idx],
                 simple_tags := s.simple_tags ++ [s.cur_tag],
                 cur_tag := stripAll 'B' '-' pred, cur_idx := i, open_tag := true }
      else { s with cur_tag := stripAll 'B' '-' pred, cur_idx := i, open_tag := true } := by
  simp [iobStep, hB]

lemma iobStep_I_case (i : Nat) (pred : List Char) (s : IobState)
    (hB : hasSub 'B' '-' pred = false) (hI : hasSub 'I' '-' pred = true) :
    iobStep i pred s =
      if s.open_tag = true ∧ stripAll 'I' '-' pred = s.cur_tag then
        { s with spans := s.spans.set s.cur_idx { s.spans.getD s.cur_idx ⟨0, 0⟩ with stop := (s.spans.getD i ⟨0, 0⟩).stop } }
      else if s.open_tag = true then
        { s with merged_idx := s.merged_idx ++ [s.cur_idx],
                 simple_tags := s.simple_tags ++ [s.cur_tag], open_tag := false }
      else s := by
  simp [iobStep, hB, hI]

lemma iobStep_tags_merged_len (i : Nat) (pred : List Char) (s : IobState)
    (h : s.simple_tags.length = s.merged_idx.length) :
    (iobStep i pred s).simple_tags.length = (iobStep i pred s).merged_idx.length := by
  unfold iobStep
  split_ifs <;> simp [h]

lemma iobLoop_tags_merged_len :
    ∀ (preds : List (List Char)) (i : Nat) (s : IobState),
      s.simple_tags.length = s.merged_idx.length →
      (iobLoop i preds s).simple_tags.length = (iobLoop i preds s).merged_idx.length := by
  intro preds
  induction preds with
  | nil => intro i s h; exact h
  | cons p rest ih =>
    intro i s h
    exact ih (i + 1) _ (iobStep_tags_merged_len i p s h)

/-- C9: the two sequences returned by `convert_iob_to_simple_tags` — the
merged simple tags and the merged spans — always have equal length, so the
i-th tag is paired with the i-th span. -/
theorem convert_output_lengths (preds : List (List Char)) (spans : List Span) :
    (convert_iob_to_simple_tags preds spans).1.length =
      (convert_iob_to_simple_tags preds spans).2.1.length := by
  unfold convert_iob_to_simple_tags
  have h := iobLoop_tags_merged_len (preds.take spans.length) 0 ⟨spans, [], [], false, [], 0⟩ rfl
  unfold iobFinal
  split_ifs <;> simp [h]

/-- C8 counterexample: the merge is not side-effect free on its inputs — on
tags `["B-PER", "I-PER"]` with spans `[(0,1), (2,5)]` the caller's first span
record comes back as `(0,5)`: the `I-PER` token wrote its `end` into the open
(`B` token's) span record in place, through the `cur_span` alias. -/
theorem convert_mutates_input_spans :
    ¬ ((convert_iob_to_simple_tags [['B','-','P','E','R'], ['I','-','P','E','R']]
        [⟨0, 1⟩, ⟨2, 5⟩]).2.2 = [⟨0, 1⟩, ⟨2, 5⟩]) := by decide

/-- C8 (amended): the merge computes its outputs deterministically from its
inputs and never touches the tag sequence, but it does modify input span
records: on tags `["B-PER", "I-PER"]` with any spans `s1, s2`, the first input
span record's `end` field is overwritten with `s2`'s `end` (and the returned
merged span aliases that mutated record). -/
theorem convert_extends_open_span_in_place (s1 s2 : Span) :
    (convert_iob_to_simple_tags [['B','-','P','E','R'], ['I','-','P','E','R']] [s1, s2]).2.2 =
      [{ s1 with stop := s2.stop }, s2] ∧
    (convert_iob_to_simple_tags [['B','-','P','E','R'], ['I','-','P','E','R']] [s1, s2]).1 =
      [['P','E','R']] ∧
    (convert_iob_to_simple_tags [['B','-','P','E','R'], ['I','-','P','E','R']] [s1, s2]).2.1 =
      [{ s1 with stop := s2.stop }] :=
  ⟨rfl, rfl, rfl⟩

/-- C7 counterexample: over the claim's alphabet with TYPE = `"B-X"`, the tag
`"I-B-X"` is treated by the source as a `B` token (substring test) and opens an
entity tagged `"I-X"` (replace-all), while the spec machine drops the orphan
`I` token: the outputs differ. -/
theorem convert_differs_from_spec_machine :
    ¬ ((convert_iob_to_simple_tags [renderTok (IobTok.It ['B','-','X'])] [⟨0, 1⟩]).1 =
        (merge_iob_spans [IobTok.It ['B','-','X']] [⟨0, 1⟩]).1) := by decide

lemma iobLoop_matches_mergeLoop :
    ∀ (rest : List (IobTok × Span)) (i : Nat) (s : IobState)
      (st : Option (List Char × Span)),
      (∀ p ∈ rest, cleanTok p.1) →
      i + rest.length ≤ s.spans.length →
      (∀ k, k < rest.length → s.spans.getD (i + k) ⟨0, 0⟩ = (rest.getD k (IobTok.O, ⟨0, 0⟩)).2) →
      (∀ k ∈ s.merged_idx, k < i) →
      (match st with
       | none => s.open_tag = false
       | some (t, sp) => s.open_tag = true ∧ s.cur_tag = t ∧ s.cur_idx < i ∧
           s.spans.getD s.cur_idx ⟨0, 0⟩ = sp ∧ ∀ k ∈ s.merged_idx, ¬ k = s.cur_idx) →
      (iobFinal (iobLoop i (rest.map fun p => renderTok p.1) s)).simple_tags =
          s.simple_tags ++ (mergeLoop rest st).1 ∧
      (iobFinal (iobLoop i (rest.map fun p => renderTok p.1) s)).merged_idx.map
          (fun k => (iobFinal (iobLoop i (rest.map fun p => renderTok p.1) s)).spans.getD k ⟨0, 0⟩) =
        s.merged_idx.map (fun k => s.spans.getD k ⟨0, 0⟩) ++ (mergeLoop rest st).2 := by
  intro rest
  induction rest with
  | nil =>
    intro i s st hclean h0 h1 h3 h2
    simp only [List.map_nil, iobLoop]
    cases st with
    | none =>
      have hcl : s.open_tag = false := h2
      unfold iobFinal
      rw [if_neg (by simp [hcl])]
      simp [mergeLoop]
    | some tsp =>
      obtain ⟨t, sp⟩ := tsp
      obtain ⟨ho, hct, hci, hsp, hfresh⟩ := h2
      unfold iobFinal
      rw [if_pos ho]
      simp only [mergeLoop]
      constructor
      · dsimp only
        rw [hct]
      · dsimp only
        simp only [List.map_append, List.map_cons, List.map_nil]
        rw [hsp]
  | cons p rest ih =>
    obtain ⟨tok, sp⟩ := p
    intro i s st hclean h0 h1 h3 h2
    have hcleanTail : ∀ q ∈ rest, cleanTok q.1 :=
      fun q hq => hclean q (List.mem_cons_of_mem _ hq)
    have hspI : s.spans.getD i ⟨0, 0⟩ = sp := by
      have h := h1 0 (by simp)
      simpa using h
    have h1tail : ∀ k, k < rest.length →
        s.spans.getD (i + 1 + k) ⟨0, 0⟩ = (rest.getD k (IobTok.O, ⟨0, 0⟩)).2 := by
      intro k hk
      have h := h1 (k + 1) (by simp only [List.length_cons]; omega)
      have he : i + (k + 1) = i + 1 + k := by omega
      rw [he] at h
      simpa using h
    have h0tail : i + 1 + rest.length ≤ s.spans.length := by
      simp only [List.length_cons] at h0; omega
    have h3tail : ∀ k ∈ s.merged_idx, k < i + 1 :=
      fun k hk => by have := h3 k hk; omega
    simp only [List.map_cons, iobLoop]
    cases tok with
    | O =>
      rw [show renderTok IobTok.O = ['O'] from rfl,
        iobStep_O_case i ['O'] s (by decide) (by decide)]
      cases st with
      | none =>
        have hcl : s.open_tag = false := h2
        rw [if_neg (by simp [hcl])]
        have hm : mergeLoop ((IobTok.O, sp) :: rest) none = mergeLoop rest none := rfl
        rw [hm]
        exact ih (i + 1) s none hcleanTail h0tail h1tail h3tail hcl
      | some tsp =>
        obtain ⟨t, spO⟩ := tsp
        obtain ⟨ho, hct, hci, hsp, hfresh⟩ := h2
        rw [if_pos ho]
        have hm : mergeLoop ((IobTok.O, sp) :: rest) (some (t, spO)) =
            (t :: (mergeLoop rest none).1, spO :: (mergeLoop rest none).2) := rfl
        rw [hm]
        have hres := ih (i + 1)
          { s with merged_idx := s.merged_idx ++ [s.cur_idx],
                   simple_tags := s.simple_tags ++ [s.cur_tag], open_tag := false }
          none hcleanTail h0tail h1tail
          (by intro k hk
              dsimp only at hk ⊢
              simp only [List.mem_append, List.mem_singleton] at hk
              rcases hk with hk | hk
              · have := h3 k hk; omega
              · omega)
          rfl
        obtain ⟨hTags, hMerged⟩ := hres
        dsimp only at hTags hMerged
        constructor
        · rw [hTags, hct, List.append_assoc, List.singleton_append]
        · rw [hMerged]
          simp only [List.map_append, List.map_cons, List.map_nil]
          rw [hsp, List.append_assoc, List.singleton_append]
    | Bt x =>
      obtain ⟨hxB, hxI⟩ : cleanType x := hclean (IobTok.Bt x, sp) (by simp)
      rw [show renderTok (IobTok.Bt x) = 'B' :: '-' :: x from rfl,
        iobStep_B_case i _ s (hasSub_B_of_renderB x), stripAll_renderB x hxB]
      cases st with
      | none =>
        have hcl : s.open_tag = false := h2
        rw [if_neg (by simp [hcl])]
        have hm : mergeLoop ((IobTok.Bt x, sp) :: rest) none =
            mergeLoop rest (some (x, sp)) := rfl
        rw [hm]
        exact ih (i + 1) { s with cur_tag := x, cur_idx := i, open_tag := true }
          (some (x, sp)) hcleanTail h0tail h1tail h3tail
          ⟨rfl, rfl, by dsimp only; omega, hspI,
            fun k hk => by dsimp only at hk ⊢; have := h3 k hk; omega⟩
      | some tsp =>
        obtain ⟨t, spO⟩ := tsp
        obtain ⟨ho, hct, hci, hsp, hfresh⟩ := h2
        rw [if_pos ho]
        have hm : mergeLoop ((IobTok.Bt x, sp) :: rest) (some (t, spO)) =
            (t :: (mergeLoop rest (some (x, sp))).1, spO :: (mergeLoop rest (some (x, sp))).2) := rfl
        rw [hm]
        have hres := ih (i + 1)
          { s with merged_idx := s.merged_idx ++ [s.cur_idx],
                   simple_tags := s.simple_tags ++ [s.cur_tag],
                   cur_tag := x, cur_idx := i, open_tag := true }
          (some (x, sp)) hcleanTail h0tail h1tail
          (by intro k hk
              dsimp only at hk ⊢
              simp only [List.mem_append, List.mem_singleton] at hk
              rcases hk with hk | hk
              · have := h3 k hk; omega
              · omega)
          (by refine ⟨rfl, rfl, by dsimp only; omega, hspI, ?_⟩
              intro k hk
              dsimp only at hk ⊢
              simp only [List.mem_append, List.mem_singleton] at hk
              rcases hk with hk | hk
              · have := h3 k hk; omega
              · omega)
        obtain ⟨hTags, hMerged⟩ := hres
        dsimp only at hTags hMerged
        constructor
        · rw [hTags, hct, List.append_assoc, List.singleton_append]
        · rw [hMerged]
          simp only [List.map_append, List.map_cons, List.map_nil]
          rw [hsp, List.append_assoc, List.singleton_append]
    | It x =>
      obtain ⟨hxB, hxI⟩ : cleanType x := hclean (IobTok.It x, sp) (by simp)
      have hBr : hasSub 'B' '-' ('I' :: '-' :: x) = false := by
        rw [hasSub_B_of_renderI x]; exact hxB
      rw [show renderTok (IobTok.It x) = 'I' :: '-' :: x from rfl,
        iobStep_I_case i _ s hBr (hasSub_I_of_renderI x), stripAll_renderI x hxI]
      cases st with
      | none =>
        have hcl : s.open_tag = false := h2
        rw [if_neg (by simp [hcl]), if_neg (by simp [hcl])]
        have hm : mergeLoop ((IobTok.It x, sp) :: rest) none = mergeLoop rest none := rfl
        rw [hm]
        exact ih (i + 1) s none hcleanTail h0tail h1tail h3tail hcl
      | some tsp =>
        obtain ⟨t, spO⟩ := tsp
        obtain ⟨ho, hct, hci, hsp, hfresh⟩ := h2
        by_cases hxt : x = t
        · subst hxt
          rw [if_pos ⟨ho, by rw [hct]⟩]
          have hcilen : s.cur_idx < s.spans.length := by
            simp only [List.length_cons] at h0; omega
          have hm : mergeLoop ((IobTok.It x, sp) :: rest) (some (x, spO)) =
              mergeLoop rest (some (x, { spO with stop := sp.stop })) := by
            simp [mergeLoop]
          rw [hm]
          have hres := ih (i + 1)
            { s with spans := s.spans.set s.cur_idx { s.spans.getD s.cur_idx ⟨0, 0⟩ with stop := (s.spans.getD i ⟨0, 0⟩).stop } }
            (some (x, { spO with stop := sp.stop }))
            hcleanTail
            (by dsimp only; rw [List.length_set]; exact h0tail)
            (by intro k hk
                dsimp only
                have hne : ¬ s.cur_idx = i + 1 + k := by omega
                rw [getD_set_ne _ _ _ _ _ hne]
                exact h1tail k hk)
            h3tail
            (by refine ⟨ho, hct, by dsimp only; omega, ?_, ?_⟩
                · dsimp only
                  rw [getD_set_self _ _ _ _ hcilen, hsp, hspI]
                · intro k hk
                  dsimp only at hk ⊢
                  exact hfresh k hk)
          obtain ⟨hTags, hMerged⟩ := hres
          dsimp only at hTags hMerged
          constructor
          · rw [hTags]
          · rw [hMerged]
            congr 1
            apply List.map_congr_left
            intro k hk
            exact getD_set_ne _ _ _ _ _ (fun he => hfresh k hk he.symm)
        · rw [if_neg (by rintro ⟨-, hceq⟩; rw [hct] at hceq; exact hxt hceq), if_pos ho]
          have hm : mergeLoop ((IobTok.It x, sp) :: rest) (some (t, spO)) =
              (t :: (mergeLoop rest none).1, spO :: (mergeLoop rest none).2) := by
            simp [mergeLoop, hxt]
          rw [hm]
          have hres := ih (i + 1)
            { s with merged_idx := s.merged_idx ++ [s.cur_idx],
                     simple_tags := s.simple_tags ++ [s.cur_tag], open_tag := false }
            none hcleanTail h0tail h1tail
            (by intro k hk
                dsimp only at hk ⊢
                simp only [List.mem_append, List.mem_singleton] at hk
                rcases hk with hk | hk
                · have := h3 k hk; omega
                · omega)
            rfl
          obtain ⟨hTags, hMerged⟩ := hres
          dsimp only at hTags hMerged
          constructor
          · rw [hTags, hct, List.append_assoc, List.singleton_append]
          · rw [hMerged]
            simp only [List.map_append, List.map_cons, List.map_nil]
            rw [hsp, List.append_assoc, List.singleton_append]

/-- C7 (amended): over the IOB alphabet `{O, B-TYPE, I-TYPE}` where no TYPE
contains `"B-"` or `"I-"` as a substring, `convert_iob_to_simple_tags` computes
exactly the two-state machine of the spec: same emitted tags and same merged
spans, in emission order.  (Without the substring restriction the source's
substring tests and replace-all diverge from the machine.) -/
theorem convert_matches_spec_machine (toks : List IobTok) (spans : List Span)
    (hclean : ∀ tok ∈ toks, cleanTok tok) (hlen : toks.length = spans.length) :
    (convert_iob_to_simple_tags (toks.map renderTok) spans).1 =
      (merge_iob_spans toks spans).1 ∧
    (convert_iob_to_simple_tags (toks.map renderTok) spans).2.1 =
      (merge_iob_spans toks spans).2 := by
  have hpred : (toks.map renderTok).take spans.length =
      (toks.zip spans).map (fun p => renderTok p.1) := by
    have h1 : (toks.map renderTok).take spans.length = toks.map renderTok :=
      List.take_of_length_le (by simp [hlen])
    have h2 : (toks.zip spans).map (fun p => renderTok p.1) = toks.map renderTok := by
      rw [show (fun p : IobTok × Span => renderTok p.1) = renderTok ∘ Prod.fst from rfl,
        ← List.map_map, List.map_fst_zip toks spans (by omega)]
    rw [h1, h2]
  have hmain := iobLoop_matches_mergeLoop (toks.zip spans) 0
    ⟨spans, [], [], false, [], 0⟩ none
    (by rintro ⟨tok, sp⟩ hp
        exact hclean tok (List.of_mem_zip hp).1)
    (by simp [List.length_zip])
    (by intro k hk
        have hkz : k < (toks.zip spans).length := hk
        have hk2 : k < spans.length := by
          simp [List.length_zip] at hk; omega
        simp only [Nat.zero_add]
        rw [List.getD_eq_getElem?_getD, List.getD_eq_getElem?_getD,
          List.getElem?_eq_getElem hk2, List.getElem?_eq_getElem hkz]
        simp [List.getElem_zip])
    (by intro k hk; exact absurd hk (List.not_mem_nil k))
    rfl
  simp only [convert_iob_to_simple_tags, merge_iob_spans]
  rw [hpred]
  obtain ⟨hTags, hMerged⟩ := hmain
  dsimp only at hTags hMerged
  rw [List.nil_append] at hTags
  simp only [List.map_nil, List.nil_append] at hMerged
  exact ⟨hTags, hMerged⟩

/-- C7 witness: the spec's worked example, clean types `PER`/`LOC`. -/
theorem convert_matches_spec_machine_witness :
    (convert_iob_to_simple_tags
        ([IobTok.O, IobTok.Bt ['P','E','R'], IobTok.It ['P','E','R'], IobTok.O,
          IobTok.Bt ['L','O','C']].map renderTok)
        [⟨0,1⟩, ⟨2,5⟩, ⟨6,9⟩, ⟨10,11⟩, ⟨12,15⟩]).1 =
      (merge_iob_spans
        [IobTok.O, IobTok.Bt ['P','E','R'], IobTok.It ['P','E','R'], IobTok.O,
          IobTok.Bt ['L','O','C']]
        [⟨0,1⟩, ⟨2,5⟩, ⟨6,9⟩, ⟨10,11⟩, ⟨12,15⟩]).1 ∧
    (convert_iob_to_simple_tags
        ([IobTok.O, IobTok.Bt ['P','E','R'], IobTok.It ['P','E','R'], IobTok.O,
          IobTok.Bt ['L','O','C']].map renderTok)
        [⟨0,1⟩, ⟨2,5⟩, ⟨6,9⟩, ⟨10,11⟩, ⟨12,15⟩]).2.1 =
      (merge_iob_spans
        [IobTok.O, IobTok.Bt ['P','E','R'], IobTok.It ['P','E','R'], IobTok.O,
          IobTok.Bt ['L','O','C']]
        [⟨0,1⟩, ⟨2,5⟩, ⟨6,9⟩, ⟨10,11⟩, ⟨12,15⟩]).2 :=
  convert_matches_spec_machine _ _
    (by intro tok htok
        fin_cases htok
        · exact trivial
        · exact ⟨rfl, rfl⟩
        · exact ⟨rfl, rfl⟩
        · exact trivial
        · exact ⟨rfl, rfl⟩)
    rfl
